import Mathlib

/-!
Verification development for the disco-dop fragment-extraction pipeline
(discodop/fragments.py). Python dicts are modelled as insertion-ordered
association lists; external native primitives (_fragments.extractfragments,
_fragments.exactcounts, _fragments.allfragments, tree transforms) are
modelled as function parameters, since the pipeline treats their results
as opaque data.
-/

set_option linter.unusedSectionVars false
set_option linter.unusedVariables false

namespace DiscoDop

variable {K : Type} {V : Type} {C : Type} [DecidableEq K]

/-- Lookup with default: Python d.get(k, dflt) / defaultdict access on an
insertion-ordered association list. -/
def lookupD : List (K × V) → K → V → V
  | [], _, d => d
  | p :: m, k, d => if p.1 = k then p.2 else lookupD m k d

/-- Python d[k] = v on an insertion-ordered association list: an existing key
keeps its position and gets the new value; a new key is appended at the end. -/
def setkey (m : List (K × V)) (k : K) (v : V) : List (K × V) :=
  if k ∈ m.map Prod.fst then m.map (fun p => if p.1 = k then (k, v) else p)
  else m ++ [(k, v)]

/-- Python fragments.update(results) (fragments.py line 206): each key of r is
written into m in iteration order, overwriting existing values (last write
wins). -/
def dictUpdate (m r : List (K × V)) : List (K × V) :=
  r.foldl (fun acc p => setkey acc p.1 p.2) m

/-- Approximate-mode merge (fragments.py lines 202-204): for each key of the
partial result, fragments[frag] += x into a defaultdict(int). -/
def approxMerge (m r : List (K × Nat)) : List (K × Nat) :=
  r.foldl (fun acc p => setkey acc p.1 (lookupD acc p.1 0 + p.2)) m

theorem lookupD_append (m m2 : List (K × V)) (k : K) (d : V) :
    lookupD (m ++ m2) k d = lookupD m k (lookupD m2 k d) := by
  induction m with
  | nil => rfl
  | cons p m ih =>
    simp only [List.cons_append, lookupD]
    by_cases hp : p.1 = k
    · simp [hp]
    · simp [hp, ih]

theorem lookupD_not_mem {m : List (K × V)} {k : K} (h : k ∉ m.map Prod.fst)
    (d : V) : lookupD m k d = d := by
  induction m with
  | nil => rfl
  | cons p m ih =>
    simp only [List.map_cons, List.mem_cons] at h
    push_neg at h
    simp only [lookupD]
    rw [if_neg (fun he => h.1 he.symm)]
    exact ih h.2

theorem lookupD_overwrite (m : List (K × V)) (k : K) (v : V) (d : V) :
    k ∈ m.map Prod.fst →
    lookupD (m.map (fun p => if p.1 = k then (k, v) else p)) k d = v := by
  induction m with
  | nil => simp
  | cons p m ih =>
    intro hm
    by_cases hp : p.1 = k
    · simp [lookupD, hp]
    · have hm2 : k ∈ m.map Prod.fst := by
        simp only [List.map_cons, List.mem_cons] at hm
        rcases hm with h | h
        · exact absurd h.symm hp
        · exact h
      simp only [List.map_cons, lookupD, if_neg hp]
      exact ih hm2

theorem lookupD_overwrite_ne (m : List (K × V)) {k k2 : K} (hne : k2 ≠ k)
    (v : V) (d : V) :
    lookupD (m.map (fun p => if p.1 = k then (k, v) else p)) k2 d =
      lookupD m k2 d := by
  induction m with
  | nil => rfl
  | cons p m ih =>
    obtain ⟨a, b⟩ := p
    by_cases hp : a = k
    · subst hp
      simp only [List.map_cons, lookupD, if_pos rfl]
      rw [if_neg (fun he => hne he.symm), if_neg (fun he => hne he.symm)]
      exact ih
    · simp only [List.map_cons, lookupD, if_neg hp]
      by_cases hp2 : a = k2
      · simp [hp2]
      · simp only [if_neg hp2]
        exact ih

theorem lookupD_setkey_self (m : List (K × V)) (k : K) (v : V) (d : V) :
    lookupD (setkey m k v) k d = v := by
  unfold setkey
  by_cases hm : k ∈ m.map Prod.fst
  · rw [if_pos hm]
    exact lookupD_overwrite m k v d hm
  · rw [if_neg hm, lookupD_append, lookupD_not_mem hm]
    simp [lookupD]

theorem lookupD_setkey_ne (m : List (K × V)) {k k2 : K} (hne : k2 ≠ k)
    (v : V) (d : V) : lookupD (setkey m k v) k2 d = lookupD m k2 d := by
  unfold setkey
  by_cases hm : k ∈ m.map Prod.fst
  · rw [if_pos hm]
    exact lookupD_overwrite_ne m hne v d
  · rw [if_neg hm, lookupD_append]
    have h1 : lookupD [(k, v)] k2 d = d := by
      simp only [lookupD]
      rw [if_neg (fun he => hne he.symm)]
    rw [h1]

theorem mem_keys_setkey (m : List (K × V)) (k a : K) (v : V)
    (h : a ∈ m.map Prod.fst) : a ∈ (setkey m k v).map Prod.fst := by
  unfold setkey
  by_cases hm : k ∈ m.map Prod.fst
  · rw [if_pos hm]
    simp only [List.mem_map] at h ⊢
    obtain ⟨q, hq, hqa⟩ := h
    refine ⟨if q.1 = k then (k, v) else q, ⟨q, hq, rfl⟩, ?_⟩
    by_cases hqk : q.1 = k
    · rw [if_pos hqk]
      show k = a
      rw [← hqk]
      exact hqa
    · rw [if_neg hqk]
      exact hqa
  · rw [if_neg hm]
    simp only [List.map_append, List.mem_append]
    exact Or.inl h

theorem eq_of_mem_of_nodup_keys {m : List (K × V)} (hn : (m.map Prod.fst).Nodup)
    {p q : K × V} (hp : p ∈ m) (hq : q ∈ m) (h : p.1 = q.1) : p = q := by
  induction m with
  | nil => cases hp
  | cons r m ih =>
    simp only [List.map_cons, List.nodup_cons] at hn
    rcases List.mem_cons.mp hp with hp1 | hp1 <;> rcases List.mem_cons.mp hq with hq1 | hq1
    · rw [hp1, hq1]
    · exfalso
      apply hn.1
      rw [hp1] at h
      rw [h]
      exact List.mem_map_of_mem Prod.fst hq1
    · exfalso
      apply hn.1
      rw [hq1] at h
      rw [← h]
      exact List.mem_map_of_mem Prod.fst hp1
    · exact ih hn.2 hp1 hq1

theorem setkey_of_mem {m : List (K × V)} (hn : (m.map Prod.fst).Nodup)
    {k : K} {v : V} (hm : (k, v) ∈ m) : setkey m k v = m := by
  unfold setkey
  rw [if_pos (List.mem_map_of_mem Prod.fst hm)]
  have h1 : ∀ p ∈ m, (if p.1 = k then (k, v) else p) = p := by
    intro p hp
    by_cases hpk : p.1 = k
    · rw [if_pos hpk]
      exact eq_of_mem_of_nodup_keys hn hm hp hpk.symm
    · rw [if_neg hpk]
  calc m.map (fun p => if p.1 = k then (k, v) else p) = m.map id :=
        List.map_congr_left h1
    _ = m := List.map_id m

theorem mem_keys_dictUpdate (m r : List (K × V)) (a : K)
    (h : a ∈ m.map Prod.fst) : a ∈ (dictUpdate m r).map Prod.fst := by
  induction r generalizing m with
  | nil => exact h
  | cons p r ih => exact ih (setkey m p.1 p.2) (mem_keys_setkey m p.1 a p.2 h)

theorem lookupD_dictUpdate_frozen (m r : List (K × V)) (k : K) (d : V)
    (h : ∀ p ∈ r, p.1 ≠ k) : lookupD (dictUpdate m r) k d = lookupD m k d := by
  induction r generalizing m with
  | nil => rfl
  | cons p r ih =>
    have h1 : lookupD (dictUpdate (setkey m p.1 p.2) r) k d =
        lookupD (setkey m p.1 p.2) k d :=
      ih (setkey m p.1 p.2) (fun q hq => h q (List.mem_cons_of_mem p hq))
    have h2 : lookupD (setkey m p.1 p.2) k d = lookupD m k d :=
      lookupD_setkey_ne m (fun he => h p (List.mem_cons_self p r) he.symm) p.2 d
    calc lookupD (dictUpdate m (p :: r)) k d
        = lookupD (dictUpdate (setkey m p.1 p.2) r) k d := rfl
      _ = lookupD m k d := by rw [h1, h2]

theorem dictUpdate_of_sub {m : List (K × V)} (hn : (m.map Prod.fst).Nodup) :
    ∀ r : List (K × V), (∀ p ∈ r, p ∈ m) → dictUpdate m r = m := by
  intro r
  induction r with
  | nil => intro _; rfl
  | cons p r ih =>
    intro hsub
    have hp : (p.1, p.2) ∈ m := hsub p (List.mem_cons_self p r)
    calc dictUpdate m (p :: r) = dictUpdate (setkey m p.1 p.2) r := rfl
      _ = dictUpdate m r := by rw [setkey_of_mem hn hp]
      _ = m := ih (fun q hq => hsub q (List.mem_cons_of_mem p hq))

/-- Exact-mode merge is by dictionary update: last write wins per key. -/
theorem lookupD_dictUpdate (m r : List (K × V)) (k : K) (d : V)
    (hn : (r.map Prod.fst).Nodup) :
    lookupD (dictUpdate m r) k d =
      if k ∈ r.map Prod.fst then lookupD r k d else lookupD m k d := by
  induction r generalizing m with
  | nil => rfl
  | cons p r ih =>
    simp only [List.map_cons, List.nodup_cons] at hn
    have step : dictUpdate m (p :: r) = dictUpdate (setkey m p.1 p.2) r := rfl
    rw [step, ih (setkey m p.1 p.2) hn.2]
    simp only [List.map_cons, List.mem_cons, lookupD]
    by_cases hkr : k ∈ r.map Prod.fst
    · have hpk : p.1 ≠ k := fun he => hn.1 (he ▸ hkr)
      rw [if_pos hkr, if_pos (Or.inr hkr), if_neg hpk]
    · rw [if_neg hkr]
      by_cases hkp : k = p.1
      · subst hkp
        rw [if_pos (Or.inl rfl), if_pos rfl, lookupD_setkey_self]
      · rw [if_neg (not_or.mpr ⟨hkp, hkr⟩)]
        exact lookupD_setkey_ne m hkp p.2 d

/-- Approximate-mode merge sums the per-key values of the two maps. -/
theorem lookupD_approxMerge (m r : List (K × Nat)) (k : K)
    (hn : (r.map Prod.fst).Nodup) :
    lookupD (approxMerge m r) k 0 = lookupD m k 0 + lookupD r k 0 := by
  induction r generalizing m with
  | nil => simp [approxMerge, lookupD]
  | cons p r ih =>
    simp only [List.map_cons, List.nodup_cons] at hn
    have step : approxMerge m (p :: r) =
        approxMerge (setkey m p.1 (lookupD m p.1 0 + p.2)) r := rfl
    rw [step, ih _ hn.2]
    by_cases hkp : k = p.1
    · subst hkp
      rw [lookupD_setkey_self, lookupD_not_mem hn.1]
      simp [lookupD]
    · rw [lookupD_setkey_ne m hkp]
      simp only [lookupD, if_neg (Ne.symm hkp)]

/-- Loop body of debinarize (fragments.py lines 602-614) in discontinuous
mode: unbin models Tree parsing plus unbinarize plus formatting, returning
none when any exception is raised, in which case the original fragment is
appended unchanged. -/
def debinStepDisc {σ : Type} (unbin : String → Option String)
    (result : List (String × σ)) (origfrag : String × σ) : List (String × σ) :=
  match unbin origfrag.1 with
  | none => result ++ [origfrag]
  | some f => result ++ [(f, origfrag.2)]

/-- Loop body of debinarize in non-discontinuous mode (fragments are plain
strings). -/
def debinStepFlat (unbin : String → Option String)
    (result : List String) (origfrag : String) : List String :=
  match unbin origfrag with
  | none => result ++ [origfrag]
  | some f => result ++ [f]

/-- Python debinarize (fragments.py lines 600-614), discontinuous variant. -/
def debinarizeDisc {σ : Type} (unbin : String → Option String)
    (fragments : List (String × σ)) : List (String × σ) :=
  fragments.foldl (debinStepDisc unbin) []

/-- Python debinarize (fragments.py lines 600-614), flat variant. -/
def debinarizeFlat (unbin : String → Option String)
    (fragments : List String) : List String :=
  fragments.foldl (debinStepFlat unbin) []

theorem debinarizeDisc_foldl {σ : Type} (unbin : String → Option String) :
    ∀ (l : List (String × σ)) (acc : List (String × σ)),
      l.foldl (debinStepDisc unbin) acc =
        acc ++ l.map (fun p => match unbin p.1 with
          | none => p
          | some f => (f, p.2))
  | [], acc => by simp
  | a :: l, acc => by
    have h1 : debinStepDisc unbin acc a =
        acc ++ [match unbin a.1 with | none => a | some f => (f, a.2)] := by
      unfold debinStepDisc
      cases unbin a.1 <;> simp
    simp only [List.foldl_cons, List.map_cons]
    rw [debinarizeDisc_foldl unbin l (debinStepDisc unbin acc a), h1]
    simp

theorem debinarizeFlat_foldl (unbin : String → Option String) :
    ∀ (l : List String) (acc : List String),
      l.foldl (debinStepFlat unbin) acc =
        acc ++ l.map (fun a => match unbin a with
          | none => a
          | some f => f)
  | [], acc => by simp
  | a :: l, acc => by
    have h1 : debinStepFlat unbin acc a =
        acc ++ [match unbin a with | none => a | some f => f] := by
      unfold debinStepFlat
      cases unbin a <;> simp
    simp only [List.foldl_cons, List.map_cons]
    rw [debinarizeFlat_foldl unbin l (debinStepFlat unbin acc a), h1]
    simp

/-- C10: debinarize returns a list of the same length as its input and
preserves order: position i of the result holds the debinarized form of the
fragment at position i, or the original fragment unchanged when
debinarization raises any exception (modelled by unbin returning none); no
fragment is dropped or reordered. Both the discontinuous (pair) and flat
(string) instantiations of the loop are covered. -/
theorem debinarize_pointwise {σ : Type} (unbin : String → Option String)
    (l : List (String × σ)) (lf : List String) :
    (debinarizeDisc unbin l).length = l.length
    ∧ (∀ i : Nat, (debinarizeDisc unbin l)[i]? =
        (l[i]?).map (fun p => match unbin p.1 with
          | none => p
          | some f => (f, p.2)))
    ∧ (debinarizeFlat unbin lf).length = lf.length
    ∧ (∀ i : Nat, (debinarizeFlat unbin lf)[i]? =
        (lf[i]?).map (fun a => match unbin a with
          | none => a
          | some f => f)) := by
  have hd : debinarizeDisc unbin l = l.map (fun p => match unbin p.1 with
      | none => p
      | some f => (f, p.2)) := by
    unfold debinarizeDisc
    rw [debinarizeDisc_foldl]
    simp
  have hf : debinarizeFlat unbin lf = lf.map (fun a => match unbin a with
      | none => a
      | some f => f) := by
    unfold debinarizeFlat
    rw [debinarizeFlat_foldl]
    simp
  refine ⟨?_, ?_, ?_, ?_⟩
  · rw [hd, List.length_map]
  · intro i
    rw [hd, List.getElem?_map]
  · rw [hf, List.length_map]
  · intro i
    rw [hf, List.getElem?_map]

/-- Cover-fragment merge (fragments.py lines 230-233 and 495-498): iterate
the cover dict in order; a key absent from the main fragments dict is
appended, with its cover-computed count, to the parallel key and count
lists; keys already present are left untouched. -/
def covermerge (fragments : List (K × V)) (fragmentkeys : List K)
    (counts : List C) (cover : List (K × C)) : List K × List C :=
  cover.foldl (fun acc a =>
    if a.1 ∈ fragments.map Prod.fst then acc
    else (acc.1 ++ [a.1], acc.2 ++ [a.2])) (fragmentkeys, counts)

theorem covermerge_eq (fragments : List (K × V)) :
    ∀ (cover : List (K × C)) (ks : List K) (cs : List C),
      covermerge fragments ks cs cover =
        (ks ++ ((cover.filter
            (fun a => decide (a.1 ∉ fragments.map Prod.fst))).map Prod.fst),
         cs ++ ((cover.filter
            (fun a => decide (a.1 ∉ fragments.map Prod.fst))).map Prod.snd))
  | [], ks, cs => by simp [covermerge]
  | a :: cover, ks, cs => by
    by_cases hm : a.1 ∈ fragments.map Prod.fst
    · have step : covermerge fragments ks cs (a :: cover) =
          covermerge fragments ks cs cover := by
        unfold covermerge
        simp only [List.foldl_cons, if_pos hm]
      rw [step, covermerge_eq fragments cover ks cs]
      simp [List.filter_cons, hm]
    · have step : covermerge fragments ks cs (a :: cover) =
          covermerge fragments (ks ++ [a.1]) (cs ++ [a.2]) cover := by
        unfold covermerge
        simp only [List.foldl_cons, if_neg hm]
      rw [step, covermerge_eq fragments cover (ks ++ [a.1]) (cs ++ [a.2])]
      simp [List.filter_cons, hm]

/-- C5: the cover-fragment merge never overwrites an existing key: the
original key and count lists survive as an unchanged initial segment (so
every already-present key keeps its count), only cover keys absent from the
main fragments dict are appended, each with its cover-computed count, and
the reported number of newly merged entries (len of fragmentkeys minus the
length before) equals the number of appended keys. Includes the concrete
instance: existing X with count 5, cover X and Y each with count 1, yields
keys X, Y with counts 5, 1. -/
theorem covermerge_never_overwrites (fragments : List (String × Nat))
    (ks : List String) (cs : List Nat) (cover : List (String × Nat)) :
    (covermerge fragments ks cs cover).1 =
      ks ++ ((cover.filter
        (fun a => decide (a.1 ∉ fragments.map Prod.fst))).map Prod.fst)
    ∧ (covermerge fragments ks cs cover).2 =
      cs ++ ((cover.filter
        (fun a => decide (a.1 ∉ fragments.map Prod.fst))).map Prod.snd)
    ∧ (∀ i : Nat, i < cs.length → (covermerge fragments ks cs cover).2[i]? = cs[i]?)
    ∧ (∀ i : Nat, i < ks.length → (covermerge fragments ks cs cover).1[i]? = ks[i]?)
    ∧ (covermerge fragments ks cs cover).1.length - ks.length =
      (cover.filter (fun a => decide (a.1 ∉ fragments.map Prod.fst))).length
    ∧ covermerge [("X", 5)] ["X"] [5] [("X", 1), ("Y", 1)] = (["X", "Y"], [5, 1]) := by
  have h := covermerge_eq fragments cover ks cs
  have h1 : (covermerge fragments ks cs cover).1 = ks ++ ((cover.filter
      (fun a => decide (a.1 ∉ fragments.map Prod.fst))).map Prod.fst) := by
    rw [h]
  have h2 : (covermerge fragments ks cs cover).2 = cs ++ ((cover.filter
      (fun a => decide (a.1 ∉ fragments.map Prod.fst))).map Prod.snd) := by
    rw [h]
  refine ⟨h1, h2, ?_, ?_, ?_, ?_⟩
  · intro i hi
    rw [h2, List.getElem?_append, if_pos hi]
  · intro i hi
    rw [h1, List.getElem?_append, if_pos hi]
  · rw [h1]
    simp
  · decide

/-- C2: merging per-interval extraction results. In approximate mode the
value for a key present in several partial maps is the sum of the partial
values (merging a map with A:2 and a map with A:3 yields A:5); in exact mode
merging is by dictionary update (last write wins), so merging two maps that
give the same key equal values is idempotent (a map with A:v merged with
itself yields itself). -/
theorem merge_semantics (m r : List (String × Nat))
    (hm : (m.map Prod.fst).Nodup) (hr : (r.map Prod.fst).Nodup) :
    (∀ k, lookupD (approxMerge m r) k 0 = lookupD m k 0 + lookupD r k 0)
    ∧ (∀ k d, lookupD (dictUpdate m r) k d =
        if k ∈ r.map Prod.fst then lookupD r k d else lookupD m k d)
    ∧ dictUpdate m m = m
    ∧ approxMerge [("A", 2)] [("A", 3)] = [("A", 5)]
    ∧ (∀ v : Nat, dictUpdate [("A", v)] [("A", v)] = [("A", v)]) := by
  refine ⟨fun k => lookupD_approxMerge m r k hr,
    fun k d => lookupD_dictUpdate m r k d hr,
    dictUpdate_of_sub hm m (fun p hp => hp), by decide, fun v => ?_⟩
  exact dictUpdate_of_sub (by simp) [("A", v)] (fun p hp => hp)

/-- Witness for merge_semantics at concrete maps. -/
theorem merge_semantics_witness :
    (∀ k, lookupD (approxMerge [("X", 1)] [("Y", 2)]) k 0 =
        lookupD [("X", 1)] k 0 + lookupD [("Y", 2)] k 0)
    ∧ (∀ k d, lookupD (dictUpdate [("X", 1)] [("Y", 2)]) k d =
        if k ∈ [("Y", 2)].map Prod.fst then lookupD [("Y", 2)] k d
        else lookupD [("X", 1)] k d)
    ∧ dictUpdate [("X", 1)] [("X", 1)] = [("X", 1)]
    ∧ approxMerge [("A", 2)] [("A", 3)] = [("A", 5)]
    ∧ (∀ v : Nat, dictUpdate [("A", v)] [("A", v)] = [("A", v)]) :=
  merge_semantics [("X", 1)] [("Y", 2)] (by decide) (by decide)

/-- Mode flags consulted by printfragments; trees2 records whether a second
treebank is loaded (PARAMS.get of trees2 is truthy). -/
structure PrintCfg where
  complete : Bool
  trees2 : Bool
  cover : Bool
  complement : Bool
  approx : Bool
deriving DecidableEq

/-- Threshold and zeroinvalid selection of printfragments (fragments.py
lines 638-651): complete-match mode uses threshold 0 and tolerates
out-of-range frequencies silently; cross-corpus, cover, complement and
approximate modes use threshold 0 and raise on a frequency of 0; pure
single-corpus recurring mode uses threshold 1 and raises. -/
def thresholdOf (cfg : PrintCfg) : Nat × Bool :=
  if cfg.complete then (0, false)
  else if cfg.trees2 || cfg.cover || cfg.complement || cfg.approx then (0, true)
  else (1, true)

/-- Frequency-branch loop of printfragments (fragments.py lines 677-684): a
written line is modelled as its (fragment, frequency) pair; a fragment is
written when freq is strictly greater than the threshold, otherwise, when
zeroinvalid holds, a ValueError is raised (output already written is kept,
the rest of the list is not processed). -/
def printGo (threshold : Nat) (zeroinvalid : Bool) :
    List (String × Nat) → List (String × Nat) × Option String
  | [] => ([], none)
  | (a, freq) :: rest =>
    if threshold < freq then
      let r := printGo threshold zeroinvalid rest
      ((a, freq) :: r.1, r.2)
    else if zeroinvalid then
      ([], some ("invalid fragment--frequency=1: " ++ a))
    else printGo threshold zeroinvalid rest

/-- printfragments, frequency branch (indices, relfreq and nofreq disabled):
the fragment list is zipped with the counts list and the per-mode threshold
policy is applied. -/
def printfragments (cfg : PrintCfg) (fragments : List String)
    (counts : List Nat) : List (String × Nat) × Option String :=
  printGo (thresholdOf cfg).1 (thresholdOf cfg).2 (fragments.zip counts)

theorem printGo_no_zeroinvalid (t : Nat) :
    ∀ l : List (String × Nat),
      printGo t false l = (l.filter (fun p => decide (t < p.2)), none)
  | [] => rfl
  | (a, freq) :: rest => by
    by_cases hf : t < freq
    · simp only [printGo, if_pos hf, printGo_no_zeroinvalid t rest,
        List.filter_cons]
      simp [hf]
    · simp only [printGo, if_neg hf, if_neg (Bool.false_ne_true),
        printGo_no_zeroinvalid t rest, List.filter_cons]
      simp [hf]

theorem printGo_all_good (t : Nat) (z : Bool) :
    ∀ l : List (String × Nat), (∀ p ∈ l, t < p.2) → printGo t z l = (l, none)
  | [] => fun _ => rfl
  | (a, freq) :: rest => by
    intro h
    have hf : t < freq := h (a, freq) (List.mem_cons_self _ _)
    simp only [printGo, if_pos hf,
      printGo_all_good t z rest (fun p hp => h p (List.mem_cons_of_mem _ hp))]

theorem printGo_some_bad (t : Nat) :
    ∀ l : List (String × Nat), (∃ p ∈ l, p.2 ≤ t) →
      (printGo t true l).2.isSome = true
  | [] => by simp
  | (a, freq) :: rest => by
    intro h
    by_cases hf : t < freq
    · have hrest : ∃ p ∈ rest, p.2 ≤ t := by
        obtain ⟨p, hp, hple⟩ := h
        rcases List.mem_cons.mp hp with he | hm
        · exfalso
          rw [he] at hple
          omega
        · exact ⟨p, hm, hple⟩
      simp only [printGo, if_pos hf]
      exact printGo_some_bad t rest hrest
    · simp [printGo, if_neg hf]

theorem printGo_output_good (t : Nat) (z : Bool) :
    ∀ l : List (String × Nat), ∀ p ∈ (printGo t z l).1, t < p.2
  | [] => by simp [printGo]
  | (a, freq) :: rest => by
    intro p hp
    by_cases hf : t < freq
    · simp only [printGo, if_pos hf] at hp
      rcases List.mem_cons.mp hp with he | hm
      · rw [he]
        exact hf
      · exact printGo_output_good t z rest p hm
    · by_cases hz : z = true
      · simp only [printGo, if_neg hf, if_pos hz] at hp
        cases hp
      · rw [Bool.not_eq_true] at hz
        subst hz
        simp only [printGo, if_neg hf, if_neg (Bool.false_ne_true)] at hp
        exact printGo_output_good t false rest p hp

/-- C4 counterexample: in complete-match mode a fragment with count 0 is
silently skipped: printfragments raises no error but also writes no line
with payload 0 for it, contrary to the claim that such a line is written. -/
theorem complete_zero_skipped :
    printfragments ⟨true, true, false, false, false⟩ ["X"] [0] = ([], none)
    ∧ ("X", 0) ∉ (printfragments ⟨true, true, false, false, false⟩ ["X"] [0]).1 := by
  constructor
  · rfl
  · intro h
    simp only [printfragments] at h
    cases h

/-- C4 (amended): in complete-match mode a count of 0 never raises an
invariant-violation error, but no line is written for it either: the output
is exactly the sub-list of fragments whose count is greater than 0, in
order, and the error component is always none. -/
theorem complete_mode_output (cfg : PrintCfg) (hc : cfg.complete = true)
    (fragments : List String) (counts : List Nat) :
    printfragments cfg fragments counts =
      ((fragments.zip counts).filter (fun p => decide (0 < p.2)), none) := by
  unfold printfragments thresholdOf
  rw [hc]
  simp only [if_pos rfl]
  exact printGo_no_zeroinvalid 0 (fragments.zip counts)

/-- Witness for complete_mode_output: two fragments, counts 0 and 2; only
the second is written, no error. -/
theorem complete_mode_output_witness :
    printfragments ⟨true, true, false, false, false⟩ ["A", "B"] [0, 2] =
      (((["A", "B"].zip [0, 2]).filter (fun p => decide (0 < p.2))), none) :=
  complete_mode_output ⟨true, true, false, false, false⟩ rfl ["A", "B"] [0, 2]

/-- C7: in pure single-corpus recurring mode (no second treebank, no cover,
no complement, no approximate) the validity threshold is 1: if every zipped
fragment has frequency greater than 1, all are written and no error is
raised; a fragment with frequency at most 1 (in particular 1) is never
written; and if any such fragment occurs, printfragments raises the fatal
invariant-violation ValueError. -/
theorem pure_mode_threshold (cfg : PrintCfg) (hc : cfg.complete = false)
    (ht : cfg.trees2 = false) (hcov : cfg.cover = false)
    (hcomp : cfg.complement = false) (ha : cfg.approx = false)
    (fragments : List String) (counts : List Nat) :
    ((∀ p ∈ fragments.zip counts, 1 < p.2) →
        printfragments cfg fragments counts = (fragments.zip counts, none))
    ∧ (∀ p ∈ (printfragments cfg fragments counts).1, 1 < p.2)
    ∧ ((∃ p ∈ fragments.zip counts, p.2 ≤ 1) →
        (printfragments cfg fragments counts).2.isSome = true) := by
  have hthr : thresholdOf cfg = (1, true) := by
    unfold thresholdOf
    rw [hc, ht, hcov, hcomp, ha]
    rfl
  unfold printfragments
  rw [hthr]
  exact ⟨printGo_all_good 1 true (fragments.zip counts),
    printGo_output_good 1 true (fragments.zip counts),
    printGo_some_bad 1 (fragments.zip counts)⟩

/-- Witness for pure_mode_threshold at a concrete configuration and lists. -/
theorem pure_mode_threshold_witness :
    ((∀ p ∈ ["X", "Y"].zip [1, 5], 1 < p.2) →
        printfragments ⟨false, false, false, false, false⟩ ["X", "Y"] [1, 5] =
          (["X", "Y"].zip [1, 5], none))
    ∧ (∀ p ∈ (printfragments ⟨false, false, false, false, false⟩
        ["X", "Y"] [1, 5]).1, 1 < p.2)
    ∧ ((∃ p ∈ ["X", "Y"].zip [1, 5], p.2 ≤ 1) →
        (printfragments ⟨false, false, false, false, false⟩
          ["X", "Y"] [1, 5]).2.isSome = true) :=
  pure_mode_threshold ⟨false, false, false, false, false⟩ rfl rfl rfl rfl rfl
    ["X", "Y"] [1, 5]


/-- Chunking of the exact-counting phase (fragments.py lines 216-219): the
work list is range(0, len(bitsets), countchunk) and each worker receives the
slice bitsets[a : a + countchunk]; chunksOf k yields exactly those
consecutive slices for slice size k + 1. -/
def chunksOf (k : Nat) : List V → List (List V)
  | [] => []
  | x :: xs => (x :: xs.take k) :: chunksOf k (xs.drop k)
termination_by l => l.length
decreasing_by simp only [List.length_drop, List.length_cons]; omega

/-- Slices of the exact-counting phase for countchunk =
len(bitsets) // numproc + 1 (fragments.py line 216). -/
def exactPhaseChunks (bitsets : List V) (numproc : Nat) : List (List V) :=
  chunksOf (bitsets.length / numproc) bitsets

/-- Exact-counting phase (fragments.py lines 213-223): each worker maps the
external exactcounts primitive over its slice (the primitive returns one
count per value, in order, modelled by countOf); the per-chunk results are
concatenated in chunk order by counts.extend. -/
def exactPhase (countOf : V → C) (bitsets : List V) (numproc : Nat) : List C :=
  ((exactPhaseChunks bitsets numproc).map (List.map countOf)).flatten

theorem chunksOf_flatten (k : Nat) : ∀ l : List V, (chunksOf k l).flatten = l
  | [] => by rw [chunksOf]; rfl
  | x :: xs => by
    rw [chunksOf]
    simp only [List.flatten_cons]
    rw [chunksOf_flatten k (xs.drop k)]
    simp [List.take_append_drop]
termination_by l => l.length
decreasing_by simp only [List.length_drop, List.length_cons]; omega

theorem chunksOf_length_le (k : Nat) : ∀ (l : List V) (m : Nat),
    l.length ≤ m * (k + 1) → (chunksOf k l).length ≤ m
  | [], m, _ => by rw [chunksOf]; simp
  | x :: xs, m, h => by
    cases m with
    | zero => simp at h
    | succ m2 =>
      rw [chunksOf]
      simp only [List.length_cons] at h ⊢
      have hexp : (m2 + 1) * (k + 1) = m2 * (k + 1) + (k + 1) := by ring
      have h2 : (xs.drop k).length ≤ m2 * (k + 1) := by
        simp only [List.length_drop]
        omega
      have := chunksOf_length_le k (xs.drop k) m2 h2
      omega
termination_by l => l.length
decreasing_by simp only [List.length_drop, List.length_cons]; omega

theorem chunksOf_mem_length (k : Nat) : ∀ l : List V,
    ∀ c ∈ chunksOf k l, c.length ≤ k + 1
  | [], c, hc => by rw [chunksOf] at hc; cases hc
  | x :: xs, c, hc => by
    rw [chunksOf] at hc
    rcases List.mem_cons.mp hc with he | hm
    · rw [he]
      simp only [List.length_cons, List.length_take]
      omega
    · exact chunksOf_mem_length k (xs.drop k) c hm
termination_by l => l.length
decreasing_by simp only [List.length_drop, List.length_cons]; omega

theorem chunksOf_dropLast_length (k : Nat) : ∀ l : List V,
    ∀ c ∈ (chunksOf k l).dropLast, c.length = k + 1
  | [], c, hc => by rw [chunksOf] at hc; cases hc
  | x :: xs, c, hc => by
    rw [chunksOf] at hc
    by_cases hd : xs.drop k = []
    · rw [hd, chunksOf] at hc
      cases hc
    · have hne : chunksOf k (xs.drop k) ≠ [] := by
        obtain ⟨y, ys, hys⟩ := List.exists_cons_of_ne_nil hd
        rw [hys, chunksOf]
        exact List.cons_ne_nil _ _
      rw [List.dropLast_cons_of_ne_nil hne] at hc
      rcases List.mem_cons.mp hc with he | hm
      · rw [he]
        simp only [List.length_cons, List.length_take]
        have hlen : k < xs.length := by
          by_contra hk
          push_neg at hk
          exact hd (List.drop_eq_nil_of_le hk)
        omega
      · exact chunksOf_dropLast_length k (xs.drop k) c hm
termination_by l => l.length
decreasing_by simp only [List.length_drop, List.length_cons]; omega

/-- C6 counterexample: the exact-counting phase does not split into numproc
equal-size chunks. With 3 bitsets and numproc = 2 the chunk sizes are 2 and
1 (not equal); with 2 bitsets and numproc = 3 only 2 chunks are produced
(not 3). -/
theorem exactPhaseChunks_not_equal_size :
    exactPhaseChunks ([10, 20, 30] : List Nat) 2 = [[10, 20], [30]]
    ∧ ¬ (∀ c1 ∈ exactPhaseChunks ([10, 20, 30] : List Nat) 2,
          ∀ c2 ∈ exactPhaseChunks ([10, 20, 30] : List Nat) 2,
            c1.length = c2.length)
    ∧ (exactPhaseChunks ([10, 20] : List Nat) 3).length ≠ 3 := by
  have h1 : exactPhaseChunks ([10, 20, 30] : List Nat) 2 = [[10, 20], [30]] := by
    unfold exactPhaseChunks
    simp [chunksOf]
  have h2 : exactPhaseChunks ([10, 20] : List Nat) 3 = [[10], [20]] := by
    unfold exactPhaseChunks
    simp [chunksOf]
  refine ⟨h1, ?_, ?_⟩
  · intro h
    have := h [10, 20] (by rw [h1]; exact List.mem_cons_self _ _)
      [30] (by rw [h1]; exact List.mem_cons_of_mem _ (List.mem_cons_self _ _))
    simp at this
  · rw [h2]
    simp

/-- C6 (amended): the exact-counting phase splits the flat bitset list into
at most numproc contiguous chunks, each of size at most len / numproc + 1
and all but the last of size exactly len / numproc + 1; concatenating the
per-chunk results in chunk order reassembles the counts in the original key
insertion order: the result equals mapping the counting primitive over the
flat list, so the i-th count corresponds to the i-th fragment key. -/
theorem exactPhase_reassembles {V C : Type} (countOf : V → C)
    (bitsets : List V) (numproc : Nat) (hp : 1 ≤ numproc) :
    exactPhase countOf bitsets numproc = bitsets.map countOf
    ∧ (∀ i : Nat,
        (exactPhase countOf bitsets numproc)[i]? = (bitsets[i]?).map countOf)
    ∧ (exactPhaseChunks bitsets numproc).flatten = bitsets
    ∧ (exactPhaseChunks bitsets numproc).length ≤ numproc
    ∧ (∀ c ∈ exactPhaseChunks bitsets numproc,
        c.length ≤ bitsets.length / numproc + 1)
    ∧ (∀ c ∈ (exactPhaseChunks bitsets numproc).dropLast,
        c.length = bitsets.length / numproc + 1) := by
  have hflat : (exactPhaseChunks bitsets numproc).flatten = bitsets :=
    chunksOf_flatten (bitsets.length / numproc) bitsets
  have heq : exactPhase countOf bitsets numproc = bitsets.map countOf := by
    unfold exactPhase
    rw [← List.map_flatten, hflat]
  refine ⟨heq, ?_, hflat, ?_, chunksOf_mem_length _ bitsets,
    chunksOf_dropLast_length _ bitsets⟩
  · intro i
    rw [heq, List.getElem?_map]
  · apply chunksOf_length_le
    have h1 := Nat.div_add_mod bitsets.length numproc
    have h2 := Nat.mod_lt bitsets.length hp
    have hexp : numproc * (bitsets.length / numproc + 1) =
        numproc * (bitsets.length / numproc) + numproc := by ring
    omega

/-- Witness for exactPhase_reassembles at a concrete list and numproc. -/
theorem exactPhase_reassembles_witness :
    exactPhase (fun v => v * 2) ([5, 6, 7] : List Nat) 2 =
      [5, 6, 7].map (fun v => v * 2)
    ∧ (∀ i : Nat, (exactPhase (fun v => v * 2) ([5, 6, 7] : List Nat) 2)[i]? =
        (([5, 6, 7] : List Nat)[i]?).map (fun v => v * 2))
    ∧ (exactPhaseChunks ([5, 6, 7] : List Nat) 2).flatten = [5, 6, 7]
    ∧ (exactPhaseChunks ([5, 6, 7] : List Nat) 2).length ≤ 2
    ∧ (∀ c ∈ exactPhaseChunks ([5, 6, 7] : List Nat) 2,
        c.length ≤ ([5, 6, 7] : List Nat).length / 2 + 1)
    ∧ (∀ c ∈ (exactPhaseChunks ([5, 6, 7] : List Nat) 2).dropLast,
        c.length = ([5, 6, 7] : List Nat).length / 2 + 1) :=
  exactPhase_reassembles (fun v => v * 2) [5, 6, 7] 2 (by decide)

/-- Loop of workload (fragments.py lines 417-423). The counter counts the
remaining iterations: the iteration with counter k + 1 processes row
n = numtrees - (k + 1), so n runs 1 .. numtrees - 1 in ascending order as in
range(1, numtrees); togo is decremented by numtrees - n, and when it drops
to the goal threshold the goal shrinks by chunk and the interval
(last, n) is appended. -/
def workloadLoop (numtrees : Nat) (chunk : Int) :
    Nat → Int → Int → Nat → List (Nat × Nat) → List (Nat × Nat) × Nat
  | 0, _, _, last, acc => (acc, last)
  | k + 1, togo, goal, last, acc =>
    let n := numtrees - (k + 1)
    let togo2 := togo - ((numtrees : Int) - (n : Int))
    if togo2 ≤ goal then
      workloadLoop numtrees chunk k togo2 (goal - chunk) n (acc ++ [(last, n)])
    else
      workloadLoop numtrees chunk k togo2 goal last acc

/-- workload (fragments.py lines 399-426): numproc = 1 short-circuits to the
single interval [0, numtrees); otherwise total = 0.5 * numtrees *
(numtrees - 1) comparisons are split with chunk = total // (mult * numproc)
+ 1; both are integer-valued floats in the source, modelled as exact
integers; after the loop, the remaining interval (last, numtrees) is
appended when last < numtrees. -/
def workload (numtrees mult numproc : Nat) : List (Nat × Nat) :=
  if numproc = 1 then [(0, numtrees)]
  else
    let total : Nat := numtrees * (numtrees - 1) / 2
    let chunk : Nat := total / (mult * numproc) + 1
    let res := workloadLoop numtrees (chunk : Int) (numtrees - 1) (total : Int)
      ((total : Int) - (chunk : Int)) 0 []
    if res.2 < numtrees then res.1 ++ [(res.2, numtrees)] else res.1

/-- Decides that an interval list is an ordered chain of nonempty half-open
intervals that exactly covers [s, e): each interval starts where the
previous one ended, the first starts at s and the last ends at e. -/
def chainFromB : Nat → Nat → List (Nat × Nat) → Bool
  | s, e, [] => s == e
  | s, e, p :: rest => (p.1 == s) && decide (p.1 < p.2) && chainFromB p.2 e rest

theorem chainFromB_append : ∀ (l : List (Nat × Nat)) (s m e : Nat),
    chainFromB s m l = true → m < e →
    chainFromB s e (l ++ [(m, e)]) = true
  | [], s, m, e, hc, hme => by
    simp only [chainFromB, beq_iff_eq] at hc
    subst hc
    simp [chainFromB, hme]
  | p :: l, s, m, e, hc, hme => by
    simp only [chainFromB, Bool.and_eq_true] at hc ⊢
    exact ⟨hc.1, chainFromB_append l p.2 m e hc.2 hme⟩

theorem chainFromB_le : ∀ (l : List (Nat × Nat)) (s e : Nat),
    chainFromB s e l = true → s ≤ e
  | [], s, e, hc => by
    simp only [chainFromB, beq_iff_eq] at hc
    omega
  | p :: l, s, e, hc => by
    simp only [chainFromB, Bool.and_eq_true, beq_iff_eq,
      decide_eq_true_eq] at hc
    have := chainFromB_le l p.2 e hc.2
    omega

theorem chainFromB_mem_bounds : ∀ (l : List (Nat × Nat)) (s e : Nat),
    chainFromB s e l = true → ∀ p ∈ l, s ≤ p.1 ∧ p.1 < p.2 ∧ p.2 ≤ e
  | [], _, _, _, p, hp => absurd hp (List.not_mem_nil p)
  | q :: l, s, e, hc, p, hp => by
    simp only [chainFromB, Bool.and_eq_true, beq_iff_eq,
      decide_eq_true_eq] at hc
    rcases List.mem_cons.mp hp with he | hm
    · subst he
      exact ⟨le_of_eq hc.1.1.symm, hc.1.2, chainFromB_le l p.2 e hc.2⟩
    · have := chainFromB_mem_bounds l q.2 e hc.2 p hm
      omega

theorem chainFromB_countP : ∀ (l : List (Nat × Nat)) (s e : Nat),
    chainFromB s e l = true → ∀ x, s ≤ x → x < e →
      l.countP (fun p => decide (p.1 ≤ x ∧ x < p.2)) = 1
  | [], s, e, hc, x, hsx, hxe => by
    simp only [chainFromB, beq_iff_eq] at hc
    omega
  | q :: l, s, e, hc, x, hsx, hxe => by
    simp only [chainFromB, Bool.and_eq_true, beq_iff_eq,
      decide_eq_true_eq] at hc
    rw [List.countP_cons]
    by_cases hx2 : x < q.2
    · have hq : q.1 ≤ x ∧ x < q.2 := by omega
      have hzero : l.countP (fun p => decide (p.1 ≤ x ∧ x < p.2)) = 0 := by
        rw [List.countP_eq_zero]
        intro p hp
        have := chainFromB_mem_bounds l q.2 e hc.2 p hp
        simp only [decide_eq_true_eq]
        omega
      rw [hzero]
      simp [hq]
    · have hq : ¬ (q.1 ≤ x ∧ x < q.2) := by omega
      have hone := chainFromB_countP l q.2 e hc.2 x (by omega) hxe
      rw [hone]
      simp [hq]

/-- Invariant proof for the workload loop: the accumulated intervals form a
chain from 0 to last, last stays below numtrees, and each appended interval
accounts for at least chunk comparisons, bounding the final length. -/
theorem workloadLoop_inv (numtrees total chunk : Nat) :
    ∀ (k : Nat) (togo goal : Int) (last : Nat) (acc : List (Nat × Nat)),
    k < numtrees →
    last < numtrees - k →
    chainFromB 0 last acc = true →
    2 * togo = (k : Int) * ((k : Int) + 1) →
    goal = (total : Int) - ((acc.length : Int) + 1) * (chunk : Int) →
    (acc.length : Int) * (chunk : Int) ≤ (total : Int) - togo →
    chainFromB 0 (workloadLoop numtrees (chunk : Int) k togo goal last acc).2
        (workloadLoop numtrees (chunk : Int) k togo goal last acc).1 = true
    ∧ (workloadLoop numtrees (chunk : Int) k togo goal last acc).2 < numtrees
    ∧ ((workloadLoop numtrees (chunk : Int) k togo goal last acc).1.length : Int)
        * (chunk : Int) ≤ (total : Int) := by
  intro k
  induction k with
  | zero =>
    intro togo goal last acc hk hlast hchain htogo hgoal hlen
    simp only [workloadLoop]
    have htogo0 : togo = 0 := by push_cast at htogo; omega
    refine ⟨hchain, by omega, by linarith⟩
  | succ k ih =>
    intro togo goal last acc hk hlast hchain htogo hgoal hlen
    simp only [workloadLoop]
    have hk1 : k + 1 ≤ numtrees := by omega
    have hcast : ((numtrees - (k + 1) : Nat) : Int) =
        (numtrees : Int) - ((k : Int) + 1) := by
      push_cast [Nat.cast_sub hk1]
      ring
    have htogo2 : togo - ((numtrees : Int) - ((numtrees - (k + 1) : Nat) : Int)) =
        togo - ((k : Int) + 1) := by
      rw [hcast]
      ring
    push_cast at htogo
    have hsing : (((acc ++ [(last, numtrees - (k + 1))]).length : Nat) : Int) =
        (acc.length : Int) + 1 := by
      simp
    by_cases hcut : togo - ((numtrees : Int) - ((numtrees - (k + 1) : Nat) : Int)) ≤ goal
    · rw [if_pos hcut]
      rw [htogo2] at hcut ⊢
      apply ih
      · omega
      · omega
      · exact chainFromB_append acc 0 last (numtrees - (k + 1)) hchain (by omega)
      · linear_combination htogo
      · rw [hsing, hgoal]
        ring
      · rw [hsing]
        rw [hgoal] at hcut
        linarith
    · rw [if_neg hcut]
      rw [htogo2]
      apply ih
      · omega
      · omega
      · exact hchain
      · linear_combination htogo
      · exact hgoal
      · linarith

/-- C1: for every numtrees greater than 1, mult at least 1 and numproc at
least 1, workload returns an ordered sequence of nonempty half-open
intervals chaining from 0 to numtrees (hence partitioning [0, numtrees)
with no gaps and no overlaps: every x below numtrees lies in exactly one
interval), with at most numproc * mult + 1 intervals; numproc = 1
short-circuits to the single interval (0, numtrees), e.g. numtrees 10,
numproc 1 gives [(0, 10)]. -/
theorem workload_partitions (numtrees mult numproc : Nat)
    (h1 : 1 < numtrees) (h2 : 1 ≤ mult) (h3 : 1 ≤ numproc) :
    chainFromB 0 numtrees (workload numtrees mult numproc) = true
    ∧ (workload numtrees mult numproc).length ≤ numproc * mult + 1
    ∧ (∀ x, x < numtrees →
        (workload numtrees mult numproc).countP
          (fun p => decide (p.1 ≤ x ∧ x < p.2)) = 1)
    ∧ (numproc = 1 → workload numtrees mult numproc = [(0, numtrees)])
    ∧ workload 10 1 1 = [(0, 10)] := by
  have hex : workload 10 1 1 = [(0, 10)] := rfl
  by_cases hnp : numproc = 1
  · have hw : workload numtrees mult numproc = [(0, numtrees)] := by
      rw [workload, if_pos hnp]
    have hchain : chainFromB 0 numtrees [(0, numtrees)] = true := by
      have h0 : 0 < numtrees := by omega
      simp [chainFromB, h0]
    rw [hw]
    refine ⟨hchain, Nat.succ_le_succ (Nat.zero_le _), ?_, fun _ => rfl, hex⟩
    intro x hx
    exact chainFromB_countP [(0, numtrees)] 0 numtrees hchain x (Nat.zero_le x) hx
  · have hq2 : 2 ≤ numproc := by omega
    set total : Nat := numtrees * (numtrees - 1) / 2 with htotaldef
    set chunk : Nat := total / (mult * numproc) + 1 with hchunkdef
    have heven : 2 * total = numtrees * (numtrees - 1) := by
      have hev : Even (numtrees * (numtrees - 1)) := by
        rw [Nat.mul_comm]
        have := Nat.even_mul_succ_self (numtrees - 1)
        have hn : numtrees - 1 + 1 = numtrees := by omega
        rwa [hn] at this
      rw [htotaldef, Nat.mul_comm]
      exact Nat.div_mul_cancel hev.two_dvd
    have hn1 : (1 : Nat) ≤ numtrees := by omega
    have hc1 : (2 : Int) * (total : Int) =
        (numtrees : Int) * ((numtrees : Int) - 1) := by
      have hcg := congrArg (fun z : Nat => (z : Int)) heven
      push_cast [Nat.cast_sub hn1] at hcg
      linarith
    have hinv := workloadLoop_inv numtrees total chunk (numtrees - 1)
      (total : Int) ((total : Int) - (chunk : Int)) 0 []
      (by omega) (by omega) rfl
      (by
        push_cast [Nat.cast_sub hn1]
        linear_combination hc1)
      (by simp)
      (by simp)
    set res := workloadLoop numtrees (chunk : Int) (numtrees - 1) (total : Int)
      ((total : Int) - (chunk : Int)) 0 [] with hresdef
    obtain ⟨hch, hlt, hlenf⟩ := hinv
    have hw : workload numtrees mult numproc = res.1 ++ [(res.2, numtrees)] := by
      rw [workload, if_neg hnp]
      simp only []
      rw [if_pos hlt]
    have hchainw : chainFromB 0 numtrees (workload numtrees mult numproc) = true := by
      rw [hw]
      exact chainFromB_append res.1 0 res.2 numtrees hch hlt
    have hlenN : res.1.length * chunk ≤ total := by exact_mod_cast hlenf
    have hqpos : 0 < mult * numproc := by positivity
    have hqtot : total < chunk * (mult * numproc) := by
      have hdm := (Nat.div_add_mod total (mult * numproc)).symm
      have hmlt := Nat.mod_lt total hqpos
      calc total = mult * numproc * (total / (mult * numproc)) +
            total % (mult * numproc) := hdm
        _ < mult * numproc * (total / (mult * numproc)) + mult * numproc :=
            Nat.add_lt_add_left hmlt _
        _ = (total / (mult * numproc) + 1) * (mult * numproc) := by ring
        _ = chunk * (mult * numproc) := by rw [hchunkdef]
    have hltq : res.1.length < mult * numproc := by
      by_contra hge
      push_neg at hge
      have hmono : chunk * (mult * numproc) ≤ chunk * res.1.length :=
        Nat.mul_le_mul_left chunk hge
      have hcomm : chunk * res.1.length = res.1.length * chunk :=
        Nat.mul_comm _ _
      linarith
    have hlenw : (workload numtrees mult numproc).length ≤ numproc * mult + 1 := by
      rw [hw]
      simp only [List.length_append, List.length_singleton]
      have : mult * numproc = numproc * mult := Nat.mul_comm _ _
      omega
    refine ⟨hchainw, hlenw, ?_, fun h => absurd h hnp, hex⟩
    intro x hx
    exact chainFromB_countP (workload numtrees mult numproc) 0 numtrees hchainw
      x (Nat.zero_le x) hx

/-- Witness for workload_partitions at numtrees 10, mult 1, numproc 3. -/
theorem workload_partitions_witness :
    chainFromB 0 10 (workload 10 1 3) = true
    ∧ (workload 10 1 3).length ≤ 3 * 1 + 1
    ∧ (∀ x, x < 10 →
        (workload 10 1 3).countP (fun p => decide (p.1 ≤ x ∧ x < p.2)) = 1)
    ∧ ((3 : Nat) = 1 → workload 10 1 3 = [(0, 10)])
    ∧ workload 10 1 1 = [(0, 10)] :=
  workload_partitions 10 1 3 (by decide) (by decide) (by decide)

/-- iteratefragments (fragments.py lines 546-584). The external extraction
over the new pseudo-corpus (worker fan-out plus dict update) has already
produced newfragments; the new keys are those of newfragments minus the
accumulated keys fragkeys (Python set difference, with set iteration order
modelled as first-occurrence order), and exact counts are computed for the
new keys only, via the chunked counting phase with countchunk =
len(bitsets) // numproc + 1; the countchunk = 0 guard of the source is kept
although it is unreachable. -/
def iteratefragments (fragkeys : List K) (newfragments : List (K × V))
    (countOf : V → C) (numproc : Nat) : List K × List C :=
  let newfrags := newfragments.filter (fun p => decide (p.1 ∉ fragkeys))
  let newkeys := newfrags.map Prod.fst
  let bitsets := newfrags.map Prod.snd
  if bitsets.length / numproc + 1 = 0 then (newkeys, [])
  else (newkeys, exactPhase countOf bitsets numproc)

/-- State of the iterative closure loop (fragments.py lines 506-531):
fragkeys are the keys of the accumulated fragments dict (the dict values are
never read inside the loop), keys and counts are the parallel accumulated
result lists, rounds counts executed loop iterations. -/
structure IterState (K C : Type) where
  fragkeys : List K
  keys : List K
  counts : List C
  rounds : Nat

/-- Key-set evolution of Python dict.update: existing keys keep their
position, new keys are appended in iteration order. -/
def updateKeys (ks newkeys : List K) : List K :=
  newkeys.foldl (fun acc k => if k ∈ acc then acc else acc ++ [k]) ks

/-- Iterative closure loop (fragments.py lines 514-531), bounded by the
fuel (range(10) in the source). Each round builds the pseudo-corpus from
the previous round of new fragments (prevNew) and the accumulated
pseudo-corpus accTrees; discover models binarize/introducepreterminals plus
the external extraction, returning the discovered fragment map. When the
round produces no new keys the loop stops; otherwise the new keys and
counts are appended and the fragments dict is updated with them. -/
def iterateLoop (discover : List K → List K → List (K × V)) (countOf : V → C)
    (numproc : Nat) : Nat → List K → List K → IterState K C → IterState K C
  | 0, _, _, st => st
  | fuel + 1, prevNew, accTrees, st =>
    let res := iteratefragments st.fragkeys (discover prevNew accTrees)
      countOf numproc
    if res.1.length = 0 then
      { st with rounds := st.rounds + 1 }
    else
      iterateLoop discover countOf numproc fuel res.1 (accTrees ++ prevNew)
        { fragkeys := updateKeys st.fragkeys res.1,
          keys := st.keys ++ res.1,
          counts := st.counts ++ res.2,
          rounds := st.rounds + 1 }

/-- Entry of the iterative closure: newfrags starts as the accumulated
fragments dict, the accumulated pseudo-corpus starts empty, and up to 10
rounds are executed. -/
def recurringIterate (discover : List K → List K → List (K × V))
    (countOf : V → C) (numproc : Nat) (fragkeys keys : List K)
    (counts : List C) : IterState K C :=
  iterateLoop discover countOf numproc 10 fragkeys []
    ⟨fragkeys, keys, counts, 0⟩

theorem updateKeys_mem (ks newkeys : List K) (k : K) (h : k ∈ ks) :
    k ∈ updateKeys ks newkeys := by
  induction newkeys generalizing ks with
  | nil => exact h
  | cons a l ih =>
    show k ∈ updateKeys (if a ∈ ks then ks else ks ++ [a]) l
    apply ih
    by_cases ha : a ∈ ks
    · rw [if_pos ha]
      exact h
    · rw [if_neg ha]
      exact List.mem_append_left _ h

theorem iterateLoop_rounds (discover : List K → List K → List (K × V))
    (countOf : V → C) (numproc : Nat) :
    ∀ (fuel : Nat) (prevNew accTrees : List K) (st : IterState K C),
      (iterateLoop discover countOf numproc fuel prevNew accTrees st).rounds ≤
        st.rounds + fuel
  | 0, _, _, st => Nat.le_refl _
  | fuel + 1, prevNew, accTrees, st => by
    simp only [iterateLoop]
    by_cases hr : (iteratefragments st.fragkeys (discover prevNew accTrees)
        countOf numproc).1.length = 0
    · rw [if_pos hr]
      simp only
      omega
    · rw [if_neg hr]
      have := iterateLoop_rounds discover countOf numproc fuel
        (iteratefragments st.fragkeys (discover prevNew accTrees)
          countOf numproc).1
        (accTrees ++ prevNew)
        { fragkeys := updateKeys st.fragkeys
            (iteratefragments st.fragkeys (discover prevNew accTrees)
              countOf numproc).1,
          keys := st.keys ++ (iteratefragments st.fragkeys
            (discover prevNew accTrees) countOf numproc).1,
          counts := st.counts ++ (iteratefragments st.fragkeys
            (discover prevNew accTrees) countOf numproc).2,
          rounds := st.rounds + 1 }
      simp only at this
      omega

theorem iterateLoop_mono (discover : List K → List K → List (K × V))
    (countOf : V → C) (numproc : Nat) :
    ∀ (fuel : Nat) (prevNew accTrees : List K) (st : IterState K C),
      ∃ tk tc,
        (iterateLoop discover countOf numproc fuel prevNew accTrees st).keys =
          st.keys ++ tk
        ∧ (iterateLoop discover countOf numproc fuel prevNew accTrees st).counts =
          st.counts ++ tc
        ∧ ∀ k ∈ st.fragkeys,
            k ∈ (iterateLoop discover countOf numproc fuel prevNew accTrees
              st).fragkeys
  | 0, _, _, st => ⟨[], [], by simp [iterateLoop], by simp [iterateLoop],
      fun k hk => hk⟩
  | fuel + 1, prevNew, accTrees, st => by
    simp only [iterateLoop]
    by_cases hr : (iteratefragments st.fragkeys (discover prevNew accTrees)
        countOf numproc).1.length = 0
    · rw [if_pos hr]
      exact ⟨[], [], by simp, by simp, fun k hk => hk⟩
    · rw [if_neg hr]
      obtain ⟨tk, tc, hk, hc, hf⟩ := iterateLoop_mono discover countOf numproc
        fuel
        (iteratefragments st.fragkeys (discover prevNew accTrees)
          countOf numproc).1
        (accTrees ++ prevNew)
        { fragkeys := updateKeys st.fragkeys
            (iteratefragments st.fragkeys (discover prevNew accTrees)
              countOf numproc).1,
          keys := st.keys ++ (iteratefragments st.fragkeys
            (discover prevNew accTrees) countOf numproc).1,
          counts := st.counts ++ (iteratefragments st.fragkeys
            (discover prevNew accTrees) countOf numproc).2,
          rounds := st.rounds + 1 }
      refine ⟨(iteratefragments st.fragkeys (discover prevNew accTrees)
          countOf numproc).1 ++ tk,
        (iteratefragments st.fragkeys (discover prevNew accTrees)
          countOf numproc).2 ++ tc, ?_, ?_, ?_⟩
      · rw [hk]
        simp
      · rw [hc]
        simp
      · intro k hkm
        exact hf k (updateKeys_mem _ _ k hkm)

theorem exactPhase_eq_map {V C : Type} (countOf : V → C) (bs : List V)
    (p : Nat) : exactPhase countOf bs p = bs.map countOf := by
  unfold exactPhase exactPhaseChunks
  rw [← List.map_flatten, chunksOf_flatten]

/-- C3: the iterative closure executes at most 10 rounds on every input;
each round's new keys are exactly the round's discovered keys minus all
previously accumulated keys; the loop stops, leaving the accumulated state
untouched, as soon as a round produces no new keys; across rounds the
accumulated key and count lists only grow by appending (keys and counts of
previously known fragments are never removed) and the accumulated fragments
key set is monotonically non-decreasing; exact counts are computed only for
the round's new keys, in discovery order. -/
theorem iterative_closure (K V C : Type) [DecidableEq K]
    (discover : List K → List K → List (K × V)) (countOf : V → C)
    (numproc : Nat) (fragkeys keys : List K) (counts : List C) :
    (recurringIterate discover countOf numproc fragkeys keys counts).rounds ≤ 10
    ∧ (∀ (fk : List K) (nf : List (K × V)) (k : K),
        k ∈ (iteratefragments fk nf countOf numproc).1 ↔
          (k ∈ nf.map Prod.fst ∧ k ∉ fk))
    ∧ (∀ (fuel : Nat) (pn acc : List K) (st : IterState K C),
        (iteratefragments st.fragkeys (discover pn acc) countOf numproc).1 = [] →
          iterateLoop discover countOf numproc (fuel + 1) pn acc st =
            { st with rounds := st.rounds + 1 })
    ∧ (∀ (fuel : Nat) (pn acc : List K) (st : IterState K C),
        ∃ tk tc,
          (iterateLoop discover countOf numproc fuel pn acc st).keys =
            st.keys ++ tk
          ∧ (iterateLoop discover countOf numproc fuel pn acc st).counts =
            st.counts ++ tc
          ∧ ∀ k ∈ st.fragkeys,
              k ∈ (iterateLoop discover countOf numproc fuel pn acc
                st).fragkeys)
    ∧ (∀ (fk : List K) (nf : List (K × V)),
        (iteratefragments fk nf countOf numproc).2 =
          ((nf.filter (fun p => decide (p.1 ∉ fk))).map Prod.snd).map
            countOf) := by
  refine ⟨?_, ?_, ?_, iterateLoop_mono discover countOf numproc, ?_⟩
  · unfold recurringIterate
    have h := iterateLoop_rounds discover countOf numproc 10 fragkeys []
      ⟨fragkeys, keys, counts, 0⟩
    simpa using h
  · intro fk nf k
    have hfst : (iteratefragments fk nf countOf numproc).1 =
        (nf.filter (fun p => decide (p.1 ∉ fk))).map Prod.fst := by
      simp only [iteratefragments]
      split <;> rfl
    rw [hfst]
    simp only [List.mem_map, List.mem_filter, decide_eq_true_eq]
    constructor
    · rintro ⟨p, ⟨hpnf, hpfk⟩, hpk⟩
      exact ⟨⟨p, hpnf, hpk⟩, hpk ▸ hpfk⟩
    · rintro ⟨⟨p, hpnf, hpk⟩, hkfk⟩
      refine ⟨p, ⟨hpnf, ?_⟩, hpk⟩
      rw [hpk]
      exact hkfk
  · intro fuel pn acc st hstop
    simp [iterateLoop, hstop]
  · intro fk nf
    simp only [iteratefragments]
    rw [if_neg (Nat.succ_ne_zero _)]
    exact exactPhase_eq_map countOf _ numproc

/-- recurringfragments (fragments.py lines 429-533), modelled over the
external primitives: extractF is the worker extraction over one interval
(_fragments.extractfragments through PARAMS, including the complement
flag), countOf the exact counting of one bitset, coverF the
_fragments.allfragments result, discover the pseudo-corpus extraction of
the iterative closure. Raised errors are the ValueError on an empty
treebank and the NotImplementedError for iterate without disc; the final
result dict(zip(fragmentkeys, counts)) is modelled as the zip itself. -/
def recurringfragments {T : Type}
    (extractF : Nat × Nat → List (K × V)) (countOf : V → C)
    (coverF : List (K × C))
    (discover : List K → List K → List (K × V))
    (trees : List T) (numproc : Nat) (disc iterate complement : Bool)
    (maxdepth : Nat) : Except String (List (K × C)) :=
  let numtrees := trees.length
  if numtrees = 0 then Except.error "no trees."
  else
    let work := workload numtrees 1 numproc
    let fragments := (work.map extractF).foldl dictUpdate []
    let fragmentkeys := fragments.map Prod.fst
    let bitsets := fragments.map Prod.snd
    let counts := exactPhase countOf bitsets numproc
    let kc := if maxdepth ≠ 0 then
        covermerge fragments fragmentkeys counts coverF
      else (fragmentkeys, counts)
    if iterate then
      if disc = false then Except.error "NotImplementedError"
      else
        let st := recurringIterate discover countOf numproc fragmentkeys
          kc.1 kc.2
        Except.ok (st.keys.zip st.counts)
    else Except.ok (kc.1.zip kc.2)

/-- C8: invoking the iterative closure (iterate true) with a
non-discontinuous tree representation (disc false) always fails with the
explicit NotImplementedError before performing any iteration: the result is
that error for every extraction, counting, cover and pseudo-corpus
behaviour (in particular it does not depend on discover). -/
theorem iterate_requires_disc {K V C T : Type} [DecidableEq K]
    (extractF : Nat × Nat → List (K × V)) (countOf : V → C)
    (coverF : List (K × C)) (discover : List K → List K → List (K × V))
    (trees : List T) (numproc : Nat) (complement : Bool) (maxdepth : Nat)
    (hne : trees ≠ []) :
    recurringfragments extractF countOf coverF discover trees numproc false
      true complement maxdepth =
      (Except.error "NotImplementedError" : Except String (List (K × C))) := by
  unfold recurringfragments
  rw [if_neg (fun h => hne (List.length_eq_zero.mp h))]
  rfl

/-- Witness for iterate_requires_disc at a concrete instantiation. -/
theorem iterate_requires_disc_witness :
    recurringfragments (fun _ => ([] : List (String × Nat))) (fun v => v)
      ([] : List (String × Nat)) (fun _ _ => []) [()] 1 false true false 1 =
      (Except.error "NotImplementedError" :
        Except String (List (String × Nat))) :=
  iterate_requires_disc (fun _ => []) (fun v => v) [] (fun _ _ => []) [()] 1
    false 1 (by simp)

/-- Observable external events of the main pipeline: stat of an argument
path (os.path.exists), loading of the treebanks (initworker /
readtreebanks) and fragment extraction (regular / batch). -/
inductive Event where
  | statFile (a : String)
  | loadCorpus
  | extract
deriving DecidableEq

/-- Flag configuration of main after option parsing (fragments.py lines
97-114); numproc is the resolved worker count (the cpu_count substitution
for 0 already applied); batch is the batch directory option. -/
structure MainCfg where
  approx : Bool
  indices : Bool
  nofreq : Bool
  complete : Bool
  complement : Bool
  alt : Bool
  relfreq : Bool
  twoterms : Bool
  adjacent : Bool
  numproc : Nat
  batch : Option String
deriving DecidableEq

/-- Validation and dispatch sequence of main (fragments.py lines 116-162),
modelled as the trace of external events together with the aborting error,
if any. In source order: the argument-count check exits (line 118), the
batch single-process check raises (line 122), each argument path is stat-ed
and a missing one raises (lines 128-130), then the three complete-mode
checks raise (lines 131-139); only then does the run proceed to load the
treebanks and extract. The missing-treebank message of line 117 only prints
and does not abort, so it is not an error here. -/
def mainModel (cfg : MainCfg) (args : List String)
    (fileExists : String → Bool) : List Event × Option String :=
  if cfg.batch = none ∧ args.length ≠ 1 ∧ args.length ≠ 2 then
    ([], some "incorrect number of arguments")
  else if cfg.batch ≠ none ∧ cfg.numproc ≠ 1 then
    ([], some "Batch mode only supported in single-process mode.")
  else
    let checked := (args.takeWhile fileExists).map Event.statFile
    if ¬ args.all fileExists then (checked, some "not found")
    else if cfg.complete = true ∧ args.length < 2 then
      (checked, some "need at least two treebanks with --complete.")
    else if cfg.complete = true ∧ (cfg.twoterms = true ∨ cfg.adjacent = true) then
      (checked, some "--twoterms and --adjacent are incompatible with --complete.")
    else if cfg.complete = true ∧ (cfg.approx = true ∨ cfg.nofreq = true) then
      (checked, some "--complete is incompatible with --nofreq and --approx")
    else (checked ++ [Event.loadCorpus, Event.extract], none)

theorem statFiles_no_load (l : List String) :
    Event.loadCorpus ∉ l.map Event.statFile
    ∧ Event.extract ∉ l.map Event.statFile := by
  constructor <;>
    · intro h
      obtain ⟨a, _, ha⟩ := List.mem_map.mp h
      cases ha

/-- C9: a configuration enabling complete-match together with any of
twoterms, adjacent, approx or nofreq always aborts with an error before
loading corpora or extracting any fragment: the run never emits a
loadCorpus or extract event and always carries an error; when in addition
the argument list is well-formed (two existing paths, no batch directory)
the error is exactly one of the two complete-mode ValueError messages. -/
theorem complete_flag_validation (cfg : MainCfg) (args : List String)
    (fileExists : String → Bool) (hc : cfg.complete = true)
    (hbad : cfg.twoterms = true ∨ cfg.adjacent = true ∨ cfg.approx = true
      ∨ cfg.nofreq = true) :
    (mainModel cfg args fileExists).2.isSome = true
    ∧ Event.loadCorpus ∉ (mainModel cfg args fileExists).1
    ∧ Event.extract ∉ (mainModel cfg args fileExists).1
    ∧ (args.length = 2 → cfg.batch = none →
        (∀ a ∈ args, fileExists a = true) →
        ((mainModel cfg args fileExists).2 =
            some "--twoterms and --adjacent are incompatible with --complete."
          ∨ (mainModel cfg args fileExists).2 =
            some "--complete is incompatible with --nofreq and --approx")) := by
  have hstat := statFiles_no_load (args.takeWhile fileExists)
  by_cases h1 : cfg.batch = none ∧ args.length ≠ 1 ∧ args.length ≠ 2
  · have hm : mainModel cfg args fileExists =
        ([], some "incorrect number of arguments") := by
      simp only [mainModel]
      rw [if_pos h1]
    rw [hm]
    exact ⟨rfl, by simp, by simp, fun hl _ _ => absurd hl (by omega)⟩
  by_cases h2 : cfg.batch ≠ none ∧ cfg.numproc ≠ 1
  · have hm : mainModel cfg args fileExists =
        ([], some "Batch mode only supported in single-process mode.") := by
      simp only [mainModel]
      rw [if_neg h1, if_pos h2]
    rw [hm]
    exact ⟨rfl, by simp, by simp, fun _ hb _ => absurd hb h2.1⟩
  by_cases h3 : ¬ (args.all fileExists = true)
  · have hm : mainModel cfg args fileExists =
        ((args.takeWhile fileExists).map Event.statFile, some "not found") := by
      simp only [mainModel]
      rw [if_neg h1, if_neg h2, if_pos h3]
    rw [hm]
    exact ⟨rfl, hstat.1, hstat.2,
      fun _ _ hex => absurd (List.all_eq_true.mpr hex) h3⟩
  by_cases h4 : cfg.complete = true ∧ args.length < 2
  · have hm : mainModel cfg args fileExists =
        ((args.takeWhile fileExists).map Event.statFile,
          some "need at least two treebanks with --complete.") := by
      simp only [mainModel]
      rw [if_neg h1, if_neg h2, if_neg h3, if_pos h4]
    rw [hm]
    exact ⟨rfl, hstat.1, hstat.2, fun hl _ _ => absurd hl (by omega)⟩
  by_cases h5 : cfg.complete = true ∧ (cfg.twoterms = true ∨ cfg.adjacent = true)
  · have hm : mainModel cfg args fileExists =
        ((args.takeWhile fileExists).map Event.statFile,
          some "--twoterms and --adjacent are incompatible with --complete.") := by
      simp only [mainModel]
      rw [if_neg h1, if_neg h2, if_neg h3, if_neg h4, if_pos h5]
    rw [hm]
    exact ⟨rfl, hstat.1, hstat.2, fun _ _ _ => Or.inl rfl⟩
  by_cases h6 : cfg.complete = true ∧ (cfg.approx = true ∨ cfg.nofreq = true)
  · have hm : mainModel cfg args fileExists =
        ((args.takeWhile fileExists).map Event.statFile,
          some "--complete is incompatible with --nofreq and --approx") := by
      simp only [mainModel]
      rw [if_neg h1, if_neg h2, if_neg h3, if_neg h4, if_neg h5, if_pos h6]
    rw [hm]
    exact ⟨rfl, hstat.1, hstat.2, fun _ _ _ => Or.inr rfl⟩
  exfalso
  rcases hbad with hb | hb | hb | hb
  · exact h5 ⟨hc, Or.inl hb⟩
  · exact h5 ⟨hc, Or.inr hb⟩
  · exact h6 ⟨hc, Or.inl hb⟩
  · exact h6 ⟨hc, Or.inr hb⟩

/-- Witness for complete_flag_validation at a concrete configuration. -/
theorem complete_flag_validation_witness :
    (mainModel ⟨true, false, false, true, false, false, false, true, false,
        1, none⟩ ["a", "b"] (fun _ => true)).2.isSome = true
    ∧ Event.loadCorpus ∉ (mainModel ⟨true, false, false, true, false, false,
        false, true, false, 1, none⟩ ["a", "b"] (fun _ => true)).1
    ∧ Event.extract ∉ (mainModel ⟨true, false, false, true, false, false,
        false, true, false, 1, none⟩ ["a", "b"] (fun _ => true)).1
    ∧ ((["a", "b"] : List String).length = 2 →
        (none : Option String) = none →
        (∀ a ∈ (["a", "b"] : List String), (fun _ => true) a = true) →
        ((mainModel ⟨true, false, false, true, false, false, false, true,
            false, 1, none⟩ ["a", "b"] (fun _ => true)).2 =
            some "--twoterms and --adjacent are incompatible with --complete."
          ∨ (mainModel ⟨true, false, false, true, false, false, false, true,
            false, 1, none⟩ ["a", "b"] (fun _ => true)).2 =
            some "--complete is incompatible with --nofreq and --approx")) :=
  complete_flag_validation
    ⟨true, false, false, true, false, false, false, true, false, 1, none⟩
    ["a", "b"] (fun _ => true) rfl (Or.inl rfl)

end DiscoDop
